import Mathlib

/-!
Verification of the word-audio alignment and caching subsystem of the
woodpecker reading app.  The definitions below are shallow embeddings of the
TypeScript source: the alignment word-building loops of
src/app/api/elevenlabs/route.ts, the tokenizer and sentence-audio
orchestrator of src/lib/audio.ts (and the duration-probing variant in
src/unnamed/part_007), and the playback handlers of src/unnamed/part_001
and src/unnamed/part_004.  Character timestamps are modelled as rationals:
the loops only copy timestamps and never compute with them, so the
embedding is exact.  JS `undefined` reads from out-of-range array indexing
are modelled with `Option`.
-/

namespace Woodpecker

/-- Delimiter test used by both word-building loops in route.ts:
space, newline or tab. -/
def isDelim (c : Char) : Bool := c == ' ' || c == '\n' || c == '\t'

/-- Whitespace class used by JS String.prototype.trim and by the \s regex
class (ASCII part plus no-break space). -/
def isJsSpace (c : Char) : Bool :=
  c == ' ' || c == '\t' || c == '\n' || c == '\r' || c == '\x0b' ||
  c == '\x0c' || c == ' '

/-- Model of JS String.prototype.trim: drop leading and trailing
whitespace. -/
def jsTrim (l : List Char) : List Char :=
  ((l.dropWhile isJsSpace).reverse.dropWhile isJsSpace).reverse

/-- One word span produced by the word-building loops: text, start and end
times and the character indices the word covers.  The time type is a
parameter: ℚ for in-range reads, Option ℚ when JS undefined must be
represented. -/
structure WordSpanT (τ : Type) where
  text : List Char
  startTime : τ
  endTime : τ
  characterIndices : List Nat
deriving DecidableEq

/-- The mutable currentWord accumulator of the loops (endTime is only
assigned at the moment a span is emitted, so it is not carried here). -/
structure CurWordT (τ : Type) where
  text : List Char
  startTime : τ
  characterIndices : List Nat
deriving DecidableEq

/-- Word-building loop of the full mode handler (route.ts lines 170-196 and
the identical loop at 234-260).  The list carries one (character, startTime,
endTime) triple per loop index; prevEnd is the end time of the previous
character, i.e. endTimes at index i-1; z is the startTime value given to a
freshly reset accumulator (the JS literal 0).  A delimiter emits the
accumulated word when its trimmed text is nonempty, using prevEnd as the
end time; a non-delimiter appends to the accumulator, recording the
startTime of the character that opens a word; at the end of the stream an
open word is flushed with the end time of the last character. -/
def buildFullGo {τ : Type} (z : τ) :
    List (Char × τ × τ) → τ → CurWordT τ → List (WordSpanT τ) → Nat →
    List (WordSpanT τ)
  | [], prevEnd, cur, acc, _ =>
    if cur.text ≠ [] then
      acc ++ [⟨cur.text, cur.startTime, prevEnd, cur.characterIndices⟩]
    else acc
  | (c, s, e) :: rest, prevEnd, cur, acc, i =>
    if isDelim c then
      let acc' :=
        if jsTrim cur.text ≠ [] then
          acc ++ [⟨cur.text, cur.startTime, prevEnd, cur.characterIndices⟩]
        else acc
      buildFullGo z rest e ⟨[], z, []⟩ acc' (i + 1)
    else
      buildFullGo z rest e
        ⟨cur.text ++ [c],
         (if cur.text = [] then s else cur.startTime),
         cur.characterIndices ++ [i]⟩ acc (i + 1)

/-- Word-building loop of the second route variant (route.ts lines 331-358).
Branch order differs from the full-mode loop: an empty accumulator absorbs
the current character even if it is a delimiter. -/
def buildAlignGo {τ : Type} (z : τ) :
    List (Char × τ × τ) → τ → CurWordT τ → List (WordSpanT τ) → Nat →
    List (WordSpanT τ)
  | [], prevEnd, cur, acc, _ =>
    if cur.text ≠ [] then
      acc ++ [⟨cur.text, cur.startTime, prevEnd, cur.characterIndices⟩]
    else acc
  | (c, s, e) :: rest, prevEnd, cur, acc, i =>
    if cur.text = [] then
      buildAlignGo z rest e ⟨cur.text ++ [c], s, cur.characterIndices ++ [i]⟩
        acc (i + 1)
    else if isDelim c then
      let acc' :=
        if jsTrim cur.text ≠ [] then
          acc ++ [⟨cur.text, cur.startTime, prevEnd, cur.characterIndices⟩]
        else acc
      buildAlignGo z rest e ⟨[], z, []⟩ acc' (i + 1)
    else
      buildAlignGo z rest e
        ⟨cur.text ++ [c], cur.startTime, cur.characterIndices ++ [i]⟩
        acc (i + 1)

/-- Pointwise zip of the three parallel alignment arrays. -/
def zip3 {α β γ : Type} : List α → List β → List γ → List (α × β × γ)
  | a :: as, b :: bs, c :: cs => (a, b, c) :: zip3 as bs cs
  | _, _, _ => []

/-- Full-mode word-span construction over equal-length alignment arrays
(route.ts, processedParagraphs).  For equal-length inputs every array read
of the JS loop is in range, so zipping the arrays is exact; the initial
prevEnd is a dummy that is never observed because no close can happen
before the first character. -/
def buildWords (chars : List Char) (starts ends : List ℚ) :
    List (WordSpanT ℚ) :=
  buildFullGo 0 (zip3 chars starts ends) 0 ⟨[], 0, []⟩ [] 0

/-- Second-variant word-span construction over equal-length alignment
arrays (route.ts lines 331-358). -/
def buildWordsAlign (chars : List Char) (starts ends : List ℚ) :
    List (WordSpanT ℚ) :=
  buildAlignGo 0 (zip3 chars starts ends) 0 ⟨[], 0, []⟩ [] 0

/-- JS-exact full-mode construction for arrays of any lengths: the loop
runs over characters.length and an out-of-range timestamp read yields
undefined, modelled as none.  The end time of the character before index 0
is undefined, hence the initial prevEnd none; the JS accumulator is
initialised with the number 0, hence some 0. -/
def buildWordsJS (chars : List Char) (starts ends : List ℚ) :
    List (WordSpanT (Option ℚ)) :=
  buildFullGo (some 0)
    ((List.range chars.length).map fun i =>
      (chars.getD i ' ', starts.get? i, ends.get? i))
    none ⟨[], some 0, []⟩ [] 0

/-! ### Tokenizer (src/lib/audio.ts tokenizeSentence, identical in part_007) -/

/-- Punctuation class of the tokenizer regex: period, comma, exclamation
mark, question mark, semicolon, colon, apostrophe, double quote,
parentheses, square brackets and curly braces. -/
def isPunct (c : Char) : Bool :=
  c == '.' || c == ',' || c == '!' || c == '?' || c == ';' || c == ':' ||
  c == '\'' || c == '"' || c == '(' || c == ')' || c == '[' || c == ']' ||
  c == '{' || c == '}'

/-- Strip the punctuation class from a word (word.replace of the tokenizer). -/
def cleanWord (w : List Char) : List Char := w.filter (fun c => !isPunct c)

/-- Split into maximal runs of non-whitespace characters.  JS
String.prototype.split with the regex of one-or-more whitespace also emits
empty strings on a fully-whitespace input; those are discarded by the
clean-and-drop step of the tokenizer, so the composed tokenizer below is
unaffected by omitting them here. -/
def chunksAux (p : Char → Bool) : List Char → List Char → List (List Char)
  | [], curr => if curr = [] then [] else [curr.reverse]
  | c :: cs, curr =>
    if p c then
      (if curr = [] then chunksAux p cs [] else curr.reverse :: chunksAux p cs [])
    else chunksAux p cs (c :: curr)

/-- The maximal non-whitespace runs of a character list. -/
def chunks (p : Char → Bool) (l : List Char) : List (List Char) :=
  chunksAux p l []

/-- Model of tokenizeSentence: trim, split on whitespace runs, strip
punctuation from each word, drop words that became empty. -/
def tokenizeSentence (s : List Char) : List (List Char) :=
  ((chunks isJsSpace (jsTrim s)).map cleanWord).filter (fun w => !w.isEmpty)

/-! ### Word audio cache and sentence audio orchestrator
(src/lib/audio.ts createSentenceAudio; src/unnamed/part_007 adds a per-word
duration probe) -/

/-- Opaque audio payload (the bytes of a Blob). -/
abbrev Bytes : Type := List Nat

/-- One orchestrator result entry (interface WordAudio of src/lib/audio.ts). -/
structure WordAudio where
  word : List Char
  audio : Bytes
deriving DecidableEq

/-- Lowercasing used for cache keys (word.toLowerCase()). -/
def toLowerList (w : List Char) : List Char := w.map Char.toLower

/-- The session-scoped word audio cache, as an association list keyed by
the lowercased word (the sessionId prefix is constant within a session and
is dropped).  A later put shadows an earlier one, modelling the upsert of
IDBObjectStore.put. -/
abbrev CacheMap : Type := List (List Char × Bytes)

/-- Cache lookup of AudioCache.getWord: key is the lowercased word. -/
def getWordC (c : CacheMap) (w : List Char) : Option Bytes :=
  (c.find? (fun e => e.1 == toLowerList w)).map (fun e => e.2)

/-- Cache upsert of AudioCache.setWord: the new entry shadows any older
entry for the same key (last write wins). -/
def setWordC (c : CacheMap) (w : List Char) (b : Bytes) : CacheMap :=
  (toLowerList w, b) :: c

/-- Per-token step of createSentenceAudio (src/lib/audio.ts lines 210-242).
In the JS source the tokens are processed by concurrently dispatched async
tasks; every task issues its cache read at dispatch, before any task can
complete a synthesis network call, so all reads observe the pre-call cache
state.  synth numbers the external createAudioFile calls in token order;
synth k = none models a synthesis failure, which is caught: the entry gets
a zero-length blob and no cache write happens.  Returns the entries in
token order, the cache writes in token order and the number of synthesis
calls issued. -/
def runTokens (synth : Nat → Option Bytes) (cache : CacheMap) :
    List (List Char) → Nat →
    List WordAudio × List (List Char × Bytes) × Nat
  | [], _ => ([], [], 0)
  | w :: ws, k =>
    match getWordC cache w with
    | some b =>
      let r := runTokens synth cache ws k
      (⟨w, b⟩ :: r.1, r.2.1, r.2.2)
    | none =>
      match synth k with
      | some b =>
        let r := runTokens synth cache ws (k + 1)
        (⟨w, b⟩ :: r.1, (toLowerList w, b) :: r.2.1, r.2.2 + 1)
      | none =>
        let r := runTokens synth cache ws (k + 1)
        (⟨w, []⟩ :: r.1, r.2.1, r.2.2 + 1)

/-- Apply the collected cache writes in token order; with the shadowing
cache representation a later write wins for a repeated key, as with
IDBObjectStore.put. -/
def applyWrites (cache : CacheMap) (ws : List (List Char × Bytes)) : CacheMap :=
  ws.foldl (fun c e => e :: c) cache

/-- Model of one call of createSentenceAudio (src/lib/audio.ts): tokenize,
resolve every token against the pre-call cache, synthesize the misses,
apply the writes.  Returns the entries in token order, the post-call cache
and the number of external synthesis calls issued. -/
def createSentenceAudioRun (synth : Nat → Option Bytes) (cache : CacheMap)
    (sentence : List Char) :
    List WordAudio × CacheMap × Nat :=
  let r := runTokens synth cache (tokenizeSentence sentence) 0
  (r.1, applyWrites cache r.2.1, r.2.2)

/-- One orchestrator entry of the part_007 variant, which also carries the
probed duration in milliseconds. -/
structure WordAudioD where
  word : List Char
  audio : Bytes
  duration : ℚ
deriving DecidableEq

/-- Per-token step of the part_007 createSentenceAudio (lines 219-261):
like runTokens but each entry additionally gets a duration from the
getAudioDuration probe; a probe failure is caught and replaced by the
constant 500 millisecond fallback. -/
def runTokensD (synth : Nat → Option Bytes) (probe : Bytes → Option ℚ)
    (cache : CacheMap) :
    List (List Char) → Nat →
    List WordAudioD × List (List Char × Bytes) × Nat
  | [], _ => ([], [], 0)
  | w :: ws, k =>
    match getWordC cache w with
    | some b =>
      let d := match probe b with | some d => d | none => 500
      let r := runTokensD synth probe cache ws k
      (⟨w, b, d⟩ :: r.1, r.2.1, r.2.2)
    | none =>
      match synth k with
      | some b =>
        let d := match probe b with | some d => d | none => 500
        let r := runTokensD synth probe cache ws (k + 1)
        (⟨w, b, d⟩ :: r.1, (toLowerList w, b) :: r.2.1, r.2.2 + 1)
      | none =>
        let d := match probe ([] : List Nat) with | some d => d | none => 500
        let r := runTokensD synth probe cache ws (k + 1)
        (⟨w, [], d⟩ :: r.1, r.2.1, r.2.2 + 1)

/-- Model of one call of the part_007 createSentenceAudio with duration
probing. -/
def createSentenceAudioRunD (synth : Nat → Option Bytes)
    (probe : Bytes → Option ℚ) (cache : CacheMap) (sentence : List Char) :
    List WordAudioD × CacheMap × Nat :=
  let r := runTokensD synth probe cache (tokenizeSentence sentence) 0
  (r.1, applyWrites cache r.2.1, r.2.2)

/-! ### Playback (src/lib/audio.ts playAudioBlob / playSentenceAudio,
src/unnamed/part_004 playWordWithAudio, src/unnamed/part_001 handleWordTap) -/

/-- Model of playAudioBlob (src/lib/audio.ts lines 247-264): the promise
resolves on the ended event and REJECTS on the error event or on a play()
rejection.  The playOk oracle says whether the sink decodes and plays the
blob to its natural end. -/
def playAudioBlobM (playOk : Bytes → Bool) (b : Bytes) : Except Unit Unit :=
  if playOk b then .ok () else .error ()

/-- Model of playSentenceAudio (src/lib/audio.ts lines 269-275): awaits
playAudioBlob for each entry in order; an awaited rejection throws out of
the loop, so the remaining entries are not played and the error propagates
to the caller.  Returns the words whose playback was started and completed,
and the final outcome. -/
def playSentenceAudioM (playOk : Bytes → Bool) :
    List WordAudio → List (List Char) × Except Unit Unit
  | [] => ([], .ok ())
  | wa :: rest =>
    match playAudioBlobM playOk wa.audio with
    | .ok _ =>
      let r := playSentenceAudioM playOk rest
      (wa.word :: r.1, r.2)
    | .error err => ([], .error err)

/-- Status of one HTMLAudioElement created by the storybook page. -/
inductive AudioStatus where
  | playing
  | paused
  | ended
deriving DecidableEq

/-- State of the storybook playback controller (part_004): the ref to the
currently playing word audio element, the pending word-play interval, the
main story audio flag, the highlighted word, and the status of every word
audio element created so far (keyed by an element id; none = no such
element yet). -/
structure PlayerState where
  currentPlayingAudio : Option Nat
  wordPlayInterval : Option Nat
  mainPlaying : Bool
  currentWordIndex : Nat
  statuses : Nat → Option AudioStatus

/-- Set the status of element id. -/
def setStatus (f : Nat → Option AudioStatus) (id : Nat) (st : AudioStatus) :
    Nat → Option AudioStatus :=
  fun j => if j = id then some st else f j

/-- Look up the status of element id. -/
def getStatus (f : Nat → Option AudioStatus) (id : Nat) : Option AudioStatus :=
  f id

/-- Observable sink actions, in program order. -/
inductive PlayerAction where
  | pause (id : Nat)
  | clearTimer (id : Nat)
  | pauseMain
  | play (id : Nat)
deriving DecidableEq

/-- Model of the synchronous prelude and playback start of
playWordWithAudio (part_004 lines 1310-1343): pause the currently playing
word audio and drop its ref, clear the pending interval, pause the main
audio if it is playing, highlight the word, then create the new audio
element newId, store it in the ref and start playing it. -/
def playWordWithAudioStart (s : PlayerState) (newId wordIndex : Nat) :
    PlayerState × List PlayerAction :=
  let r1 :=
    match s.currentPlayingAudio with
    | some a =>
      ({ s with statuses := setStatus s.statuses a .paused
                currentPlayingAudio := none },
       [PlayerAction.pause a])
    | none => (s, [])
  let r2 :=
    match r1.1.wordPlayInterval with
    | some t => ({ r1.1 with wordPlayInterval := none },
                 r1.2 ++ [PlayerAction.clearTimer t])
    | none => r1
  let r3 :=
    if r2.1.mainPlaying then
      ({ r2.1 with mainPlaying := false }, r2.2 ++ [PlayerAction.pauseMain])
    else r2
  let s4 := { r3.1 with currentWordIndex := wordIndex }
  ({ s4 with statuses := setStatus s4.statuses newId .playing
             currentPlayingAudio := some newId },
   r3.2 ++ [PlayerAction.play newId])

/-- The onended handler of playWordWithAudio: mark the element ended and
clear the ref; the wait promise resolves. -/
def wordAudioEnded (s : PlayerState) (id : Nat) : PlayerState :=
  { s with statuses := setStatus s.statuses id .ended
           currentPlayingAudio :=
             if s.currentPlayingAudio == some id then none
             else s.currentPlayingAudio }

/-- The onerror handler of playWordWithAudio: the error is only logged, the
ref is cleared and the wait promise RESOLVES, exactly like onended. -/
def wordAudioErrored (s : PlayerState) (id : Nat) : PlayerState :=
  { s with statuses := setStatus s.statuses id .paused
           currentPlayingAudio :=
             if s.currentPlayingAudio == some id then none
             else s.currentPlayingAudio }

/-- Model of a whole playWordWithAudio call (part_004 lines 1310-1370): the
prelude, then the wait which resolves both on natural end and on a
decode or play failure (decodeOk false).  The function has no error
outcome: a playback failure never propagates to the caller. -/
def playWordWithAudioRun (decodeOk : Bool) (s : PlayerState)
    (newId wordIndex : Nat) : PlayerState :=
  let r := playWordWithAudioStart s newId wordIndex
  if decodeOk then wordAudioEnded r.1 newId else wordAudioErrored r.1 newId

/-- State of the word-grid audio page (part_001): the highlighted word, the
word-audio indices currently playing, and the isCreating flag. -/
structure TapState where
  activeWord : Option Nat
  playing : List Nat
  isCreating : Bool
deriving DecidableEq

/-- Model of handleWordTap (part_001 lines 129-156): unless audio creation
is in progress, highlight the tapped word and, when an audio entry exists
for it, start playAudioBlob for it immediately WITHOUT stopping any
currently playing audio (the source comments: Allow tapping even if
another word is playing; Play immediately without blocking). -/
def handleWordTap (wordAudios : List (List Char)) (s : TapState)
    (index : Nat) (word : List Char) : TapState :=
  if s.isCreating then s
  else
    let s1 := { s with activeWord := some index }
    if wordAudios.any (fun wa => toLowerList wa == toLowerList word) then
      { s1 with playing := s1.playing ++ [index] }
    else s1

/-- Number of cache misses among the first i tokens, as seen against the
pre-call cache: the token-order call index of the synthesis request issued
for a missing token. -/
def missBefore (cache : CacheMap) (ws : List (List Char)) (i : Nat) : Nat :=
  (ws.take i).countP (fun w => (getWordC cache w).isNone)

/-- The audio bytes the orchestrator produces for the token at position i:
the cached bytes on a hit, the bytes of the synthesis call numbered
k + missBefore on a miss, and the zero-length placeholder when that call
fails. -/
def expectedBytes (synth : Nat → Option Bytes) (cache : CacheMap)
    (ws : List (List Char)) (k i : Nat) (w : List Char) : Bytes :=
  match getWordC cache w with
  | some b => b
  | none =>
    match synth (k + missBefore cache ws i) with
    | some b => b
    | none => []

deriving instance DecidableEq for Except

/-- Map the time type of a span through a function (used to relate the
rational-time and the Option-time renderings of the loops). -/
def mapSpan {τ σ : Type} (f : τ → σ) (sp : WordSpanT τ) : WordSpanT σ :=
  ⟨sp.text, f sp.startTime, f sp.endTime, sp.characterIndices⟩

/-! ### Helper lemmas about the orchestrator -/

theorem runTokens_map_word (synth : Nat → Option Bytes) (cache : CacheMap) :
    ∀ (ws : List (List Char)) (k : Nat),
      ((runTokens synth cache ws k).1).map WordAudio.word = ws := by
  intro ws
  induction ws with
  | nil => intro k; rfl
  | cons w ws ih =>
    intro k
    unfold runTokens
    cases h : getWordC cache w with
    | some b => simp [ih]
    | none =>
      cases hs : synth k with
      | some b => simp [ih]
      | none => simp [ih]

theorem runTokens_length (synth : Nat → Option Bytes) (cache : CacheMap)
    (ws : List (List Char)) (k : Nat) :
    ((runTokens synth cache ws k).1).length = ws.length := by
  have h := congrArg List.length (runTokens_map_word synth cache ws k)
  simpa using h

theorem runTokens_calls (synth : Nat → Option Bytes) (cache : CacheMap) :
    ∀ (ws : List (List Char)) (k : Nat),
      (runTokens synth cache ws k).2.2
        = ws.countP (fun w => (getWordC cache w).isNone) := by
  intro ws
  induction ws with
  | nil => intro k; rfl
  | cons w ws ih =>
    intro k
    unfold runTokens
    cases h : getWordC cache w with
    | some b => simp [List.countP_cons, h, ih]
    | none =>
      cases hs : synth k with
      | some b => simp [List.countP_cons, h, ih]
      | none => simp [List.countP_cons, h, ih]

theorem runTokens_hit (synth : Nat → Option Bytes) (cache : CacheMap) :
    ∀ (ws : List (List Char)) (k : Nat),
      ∀ e ∈ (runTokens synth cache ws k).1,
        ∀ b, getWordC cache e.word = some b → e.audio = b := by
  intro ws
  induction ws with
  | nil => intro k e he; simp [runTokens] at he
  | cons w ws ih =>
    intro k e he b hb
    unfold runTokens at he
    cases h : getWordC cache w with
    | some b0 =>
      rw [h] at he
      rcases List.mem_cons.mp he with rfl | hmem
      · have hbw : getWordC cache w = some b := hb
        rw [h] at hbw
        exact Option.some.inj hbw
      · exact ih k e hmem b hb
    | none =>
      rw [h] at he
      cases hs : synth k with
      | some b1 =>
        rw [hs] at he
        rcases List.mem_cons.mp he with rfl | hmem
        · have hbw : getWordC cache w = some b := hb
          rw [h] at hbw
          exact Option.noConfusion hbw
        · exact ih (k + 1) e hmem b hb
      | none =>
        rw [hs] at he
        rcases List.mem_cons.mp he with rfl | hmem
        · have hbw : getWordC cache w = some b := hb
          rw [h] at hbw
          exact Option.noConfusion hbw
        · exact ih (k + 1) e hmem b hb

theorem runTokens_writes_key (synth : Nat → Option Bytes) (cache : CacheMap)
    (hs : ∀ k, (synth k).isSome) :
    ∀ (ws : List (List Char)) (k : Nat) (w : List Char), w ∈ ws →
      (getWordC cache w).isNone →
      ∃ b, (toLowerList w, b) ∈ (runTokens synth cache ws k).2.1 := by
  intro ws
  induction ws with
  | nil => intro k w hw; simp at hw
  | cons w' ws ih =>
    intro k w hw hn
    unfold runTokens
    cases h : getWordC cache w' with
    | some b0 =>
      rcases List.mem_cons.mp hw with rfl | hmem
      · rw [h] at hn; simp at hn
      · exact ih k w hmem hn
    | none =>
      cases hsk : synth k with
      | none => have := hs k; rw [hsk] at this; simp at this
      | some b =>
        rcases List.mem_cons.mp hw with rfl | hmem
        · exact ⟨b, by simp⟩
        · obtain ⟨b', hb'⟩ := ih (k + 1) w hmem hn
          exact ⟨b', by simp [hb']⟩

theorem applyWrites_cons (cache : CacheMap) (e : List Char × Bytes)
    (l : List (List Char × Bytes)) :
    applyWrites cache (e :: l) = applyWrites (e :: cache) l := rfl

theorem getWordC_cons_isSome (cache : CacheMap) (x : List Char × Bytes)
    (w : List Char) (h : (getWordC cache w).isSome) :
    (getWordC (x :: cache) w).isSome := by
  unfold getWordC at h ⊢
  rw [List.find?_cons]
  cases hx : (x.1 == toLowerList w) <;> simp [h]

theorem getWordC_applyWrites_isSome (l : List (List Char × Bytes)) :
    ∀ (cache : CacheMap) (w : List Char), (getWordC cache w).isSome →
      (getWordC (applyWrites cache l) w).isSome := by
  induction l with
  | nil => intro cache w h; exact h
  | cons e l ih =>
    intro cache w h
    rw [applyWrites_cons]
    exact ih (e :: cache) w (getWordC_cons_isSome cache e w h)

theorem getWordC_key_head (cache : CacheMap) (w : List Char) (b : Bytes) :
    getWordC ((toLowerList w, b) :: cache) w = some b := by
  unfold getWordC
  rw [List.find?_cons]
  simp

theorem getWordC_applyWrites_of_mem (l : List (List Char × Bytes)) :
    ∀ (cache : CacheMap) (w : List Char) (b : Bytes),
      (toLowerList w, b) ∈ l →
      (getWordC (applyWrites cache l) w).isSome := by
  induction l with
  | nil => intro cache w b h; simp at h
  | cons e l ih =>
    intro cache w b h
    rw [applyWrites_cons]
    rcases List.mem_cons.mp h with rfl | hmem
    · exact getWordC_applyWrites_isSome l _ w (by rw [getWordC_key_head]; rfl)
    · exact ih (e :: cache) w b hmem

theorem tokens_cached_after (synth : Nat → Option Bytes) (cache : CacheMap)
    (s : List Char) (hs : ∀ k, (synth k).isSome) :
    ∀ w ∈ tokenizeSentence s,
      (getWordC ((createSentenceAudioRun synth cache s).2.1) w).isSome := by
  intro w hw
  by_cases h : (getWordC cache w).isSome
  · exact getWordC_applyWrites_isSome _ _ _ h
  · have hn : (getWordC cache w).isNone := by
      cases hg : getWordC cache w
      · rfl
      · rw [hg] at h; simp at h
    obtain ⟨b, hb⟩ :=
      runTokens_writes_key synth cache hs (tokenizeSentence s) 0 w hw hn
    exact getWordC_applyWrites_of_mem _ cache w b hb

theorem runTokens_get? (synth : Nat → Option Bytes) (cache : CacheMap) :
    ∀ (ws : List (List Char)) (k i : Nat), i < ws.length →
      ((runTokens synth cache ws k).1).get? i
        = some ⟨ws.getD i [],
                expectedBytes synth cache ws k i (ws.getD i [])⟩ := by
  intro ws
  induction ws with
  | nil => intro k i hi; simp at hi
  | cons w ws ih =>
    intro k i hi
    unfold runTokens
    cases i with
    | zero =>
      cases h : getWordC cache w with
      | some b => simp [expectedBytes, h]
      | none =>
        cases hs : synth k with
        | some b => simp [expectedBytes, missBefore, h, hs]
        | none => simp [expectedBytes, missBefore, h, hs]
    | succ i =>
      have hi' : i < ws.length := Nat.lt_of_succ_lt_succ hi
      cases h : getWordC cache w with
      | some b =>
        have hexp : ∀ v, expectedBytes synth cache (w :: ws) k (i + 1) v
            = expectedBytes synth cache ws k i v := by
          intro v
          simp [expectedBytes, missBefore, List.countP_cons, h]
        have hD : (w :: ws).getD (i + 1) [] = ws.getD i [] := by
          simp [List.getD]
        simp only [List.get?]
        rw [ih k i hi', hD, hexp]
      | none =>
        have hexp : ∀ v, expectedBytes synth cache (w :: ws) k (i + 1) v
            = expectedBytes synth cache ws (k + 1) i v := by
          intro v
          have harg : k + ((ws.take i).countP
                (fun w => (getWordC cache w).isNone) + 1)
              = (k + 1) + (ws.take i).countP
                (fun w => (getWordC cache w).isNone) := by omega
          simp only [expectedBytes, missBefore, List.take_succ_cons,
            List.countP_cons, h, Option.isNone_none, if_true]
          rw [harg]
        have hD : (w :: ws).getD (i + 1) [] = ws.getD i [] := by
          simp [List.getD]
        cases hs : synth k with
        | some b =>
          simp only [List.get?]
          rw [ih (k + 1) i hi', hD, hexp]
        | none =>
          simp only [List.get?]
          rw [ih (k + 1) i hi', hD, hexp]

/-! ### Helper lemmas about the duration probe -/

theorem runTokensD_duration (synth : Nat → Option Bytes)
    (probe : Bytes → Option ℚ) (cache : CacheMap) :
    ∀ (ws : List (List Char)) (k : Nat),
      ∀ e ∈ (runTokensD synth probe cache ws k).1,
        e.duration = match probe e.audio with | some d => d | none => 500 := by
  intro ws
  induction ws with
  | nil => intro k e he; simp [runTokensD] at he
  | cons w ws ih =>
    intro k e he
    unfold runTokensD at he
    cases h : getWordC cache w with
    | some b =>
      rw [h] at he
      rcases List.mem_cons.mp he with rfl | hmem
      · rfl
      · exact ih k e hmem
    | none =>
      rw [h] at he
      cases hs : synth k with
      | some b =>
        rw [hs] at he
        rcases List.mem_cons.mp he with rfl | hmem
        · rfl
        · exact ih (k + 1) e hmem
      | none =>
        rw [hs] at he
        rcases List.mem_cons.mp he with rfl | hmem
        · rfl
        · exact ih (k + 1) e hmem

/-! ### Helper lemmas about the alignment word-building loops -/

theorem chainAppendOne {α : Type} (R : α → α → Prop) (l : List α) (x : α)
    (h : List.Chain' R l) (hx : ∀ a ∈ l, R a x) :
    List.Chain' R (l ++ [x]) := by
  rw [List.chain'_append]
  refine ⟨h, List.chain'_singleton x, ?_⟩
  intro a ha y hy
  simp at hy
  subst hy
  obtain ⟨hne, ha2⟩ := List.mem_getLast?_eq_getLast ha
  subst ha2
  exact hx _ (List.getLast_mem hne)

theorem jsTrim_nil : jsTrim [] = [] := rfl

/-- Invariant proof for the full-mode loop: with pointwise start-before-end
timestamps and non-decreasing start timestamps, the emitted spans have
start ≤ end and non-decreasing start times, given matching invariants for
the accumulated state. -/
theorem buildFullGo_mono :
    ∀ (l : List (Char × ℚ × ℚ)) (p : ℚ) (cur : CurWordT ℚ)
      (acc : List (WordSpanT ℚ)) (i : Nat),
      (∀ t ∈ l, t.2.1 ≤ t.2.2) →
      List.Pairwise (fun a b : Char × ℚ × ℚ => a.2.1 ≤ b.2.1) l →
      (∀ sp ∈ acc, sp.startTime ≤ sp.endTime) →
      List.Chain' (fun a b : WordSpanT ℚ => a.startTime ≤ b.startTime) acc →
      (cur.text ≠ [] → cur.startTime ≤ p) →
      (cur.text ≠ [] → ∀ t ∈ l, cur.startTime ≤ t.2.1) →
      (∀ sp ∈ acc, cur.text ≠ [] → sp.startTime ≤ cur.startTime) →
      (∀ sp ∈ acc, ∀ t ∈ l, sp.startTime ≤ t.2.1) →
      (∀ sp ∈ buildFullGo 0 l p cur acc i, sp.startTime ≤ sp.endTime) ∧
      List.Chain' (fun a b : WordSpanT ℚ => a.startTime ≤ b.startTime)
        (buildFullGo 0 l p cur acc i) := by
  intro l
  induction l with
  | nil =>
    intro p cur acc i hp hm hA hB hC hD hE hF
    unfold buildFullGo
    by_cases htext : cur.text = []
    · simp only [htext, ne_eq, not_true_eq_false, if_false, ite_false]
      exact ⟨hA, hB⟩
    · simp only [ne_eq, htext, not_false_eq_true, if_true, ite_true]
      constructor
      · intro sp hsp
        rcases List.mem_append.mp hsp with h1 | h2
        · exact hA sp h1
        · rw [List.mem_singleton.mp h2]
          exact hC htext
      · exact chainAppendOne _ _ _ hB (fun a ha => hE a ha htext)
  | cons t rest ih =>
    intro p cur acc i hp hm hA hB hC hD hE hF
    obtain ⟨c, s, e⟩ := t
    have hse : s ≤ e := hp (c, s, e) (List.mem_cons_self _ _)
    have hpRest : ∀ t ∈ rest, t.2.1 ≤ t.2.2 :=
      fun t ht => hp t (List.mem_cons_of_mem _ ht)
    have hsFuture : ∀ t ∈ rest, s ≤ t.2.1 := (List.pairwise_cons.mp hm).1
    have hmRest := (List.pairwise_cons.mp hm).2
    unfold buildFullGo
    by_cases hdel : isDelim c = true
    · simp only [hdel, if_true, ite_true]
      by_cases htrim : jsTrim cur.text = []
      · simp only [ne_eq, htrim, not_true_eq_false, if_false, ite_false]
        refine ih e ⟨[], 0, []⟩ acc (i + 1) hpRest hmRest hA hB ?_ ?_ ?_ ?_
        · intro hh; exact absurd rfl hh
        · intro hh; exact absurd rfl hh
        · intro sp hsp hh; exact absurd rfl hh
        · intro sp hsp t ht; exact hF sp hsp t (List.mem_cons_of_mem _ ht)
      · have hcur : cur.text ≠ [] := by
          intro hh; rw [hh] at htrim; exact htrim jsTrim_nil
        simp only [ne_eq, htrim, not_false_eq_true, if_true, ite_true]
        refine ih e ⟨[], 0, []⟩
          (acc ++ [⟨cur.text, cur.startTime, p, cur.characterIndices⟩])
          (i + 1) hpRest hmRest ?_ ?_ ?_ ?_ ?_ ?_
        · intro sp hsp
          rcases List.mem_append.mp hsp with h1 | h2
          · exact hA sp h1
          · rw [List.mem_singleton.mp h2]
            exact hC hcur
        · exact chainAppendOne _ _ _ hB (fun a ha => hE a ha hcur)
        · intro hh; exact absurd rfl hh
        · intro hh; exact absurd rfl hh
        · intro sp hsp hh; exact absurd rfl hh
        · intro sp hsp t ht
          rcases List.mem_append.mp hsp with h1 | h2
          · exact hF sp h1 t (List.mem_cons_of_mem _ ht)
          · rw [List.mem_singleton.mp h2]
            exact hD hcur t (List.mem_cons_of_mem _ ht)
    · simp only [hdel, if_false, ite_false, Bool.false_eq_true]
      by_cases hcur : cur.text = []
      · simp only [hcur, if_true, ite_true]
        refine ih e ⟨[] ++ [c], s, cur.characterIndices ++ [i]⟩ acc
          (i + 1) hpRest hmRest hA hB ?_ ?_ ?_ ?_
        · intro _; exact hse
        · intro _ t ht; exact hsFuture t ht
        · intro sp hsp _; exact hF sp hsp (c, s, e) (List.mem_cons_self _ _)
        · intro sp hsp t ht; exact hF sp hsp t (List.mem_cons_of_mem _ ht)
      · simp only [hcur, if_false, ite_false]
        have hcur' : cur.text ++ [c] ≠ [] := by simp
        refine ih e ⟨cur.text ++ [c], cur.startTime, cur.characterIndices ++ [i]⟩
          acc (i + 1) hpRest hmRest hA hB ?_ ?_ ?_ ?_
        · intro _
          exact le_trans (hD hcur (c, s, e) (List.mem_cons_self _ _)) hse
        · intro _ t ht; exact hD hcur t (List.mem_cons_of_mem _ ht)
        · intro sp hsp _; exact hE sp hsp hcur
        · intro sp hsp t ht; exact hF sp hsp t (List.mem_cons_of_mem _ ht)

/-- Invariant proof for the second variant loop, mirroring
buildFullGo_mono; an empty accumulator here absorbs even a delimiter
character, which does not disturb the invariants. -/
theorem buildAlignGo_mono :
    ∀ (l : List (Char × ℚ × ℚ)) (p : ℚ) (cur : CurWordT ℚ)
      (acc : List (WordSpanT ℚ)) (i : Nat),
      (∀ t ∈ l, t.2.1 ≤ t.2.2) →
      List.Pairwise (fun a b : Char × ℚ × ℚ => a.2.1 ≤ b.2.1) l →
      (∀ sp ∈ acc, sp.startTime ≤ sp.endTime) →
      List.Chain' (fun a b : WordSpanT ℚ => a.startTime ≤ b.startTime) acc →
      (cur.text ≠ [] → cur.startTime ≤ p) →
      (cur.text ≠ [] → ∀ t ∈ l, cur.startTime ≤ t.2.1) →
      (∀ sp ∈ acc, cur.text ≠ [] → sp.startTime ≤ cur.startTime) →
      (∀ sp ∈ acc, ∀ t ∈ l, sp.startTime ≤ t.2.1) →
      (∀ sp ∈ buildAlignGo 0 l p cur acc i, sp.startTime ≤ sp.endTime) ∧
      List.Chain' (fun a b : WordSpanT ℚ => a.startTime ≤ b.startTime)
        (buildAlignGo 0 l p cur acc i) := by
  intro l
  induction l with
  | nil =>
    intro p cur acc i hp hm hA hB hC hD hE hF
    unfold buildAlignGo
    by_cases htext : cur.text = []
    · simp only [htext, ne_eq, not_true_eq_false, if_false, ite_false]
      exact ⟨hA, hB⟩
    · simp only [ne_eq, htext, not_false_eq_true, if_true, ite_true]
      constructor
      · intro sp hsp
        rcases List.mem_append.mp hsp with h1 | h2
        · exact hA sp h1
        · rw [List.mem_singleton.mp h2]
          exact hC htext
      · exact chainAppendOne _ _ _ hB (fun a ha => hE a ha htext)
  | cons t rest ih =>
    intro p cur acc i hp hm hA hB hC hD hE hF
    obtain ⟨c, s, e⟩ := t
    have hse : s ≤ e := hp (c, s, e) (List.mem_cons_self _ _)
    have hpRest : ∀ t ∈ rest, t.2.1 ≤ t.2.2 :=
      fun t ht => hp t (List.mem_cons_of_mem _ ht)
    have hsFuture : ∀ t ∈ rest, s ≤ t.2.1 := (List.pairwise_cons.mp hm).1
    have hmRest := (List.pairwise_cons.mp hm).2
    unfold buildAlignGo
    by_cases hcur : cur.text = []
    · simp only [hcur, if_true, ite_true]
      refine ih e ⟨[] ++ [c], s, cur.characterIndices ++ [i]⟩ acc
        (i + 1) hpRest hmRest hA hB ?_ ?_ ?_ ?_
      · intro _; exact hse
      · intro _ t ht; exact hsFuture t ht
      · intro sp hsp _; exact hF sp hsp (c, s, e) (List.mem_cons_self _ _)
      · intro sp hsp t ht; exact hF sp hsp t (List.mem_cons_of_mem _ ht)
    · simp only [hcur, if_false, ite_false]
      by_cases hdel : isDelim c = true
      · simp only [hdel, if_true, ite_true]
        by_cases htrim : jsTrim cur.text = []
        · simp only [ne_eq, htrim, not_true_eq_false, if_false, ite_false]
          refine ih e ⟨[], 0, []⟩ acc (i + 1) hpRest hmRest hA hB ?_ ?_ ?_ ?_
          · intro hh; exact absurd rfl hh
          · intro hh; exact absurd rfl hh
          · intro sp hsp hh; exact absurd rfl hh
          · intro sp hsp t ht; exact hF sp hsp t (List.mem_cons_of_mem _ ht)
        · simp only [ne_eq, htrim, not_false_eq_true, if_true, ite_true]
          refine ih e ⟨[], 0, []⟩
            (acc ++ [⟨cur.text, cur.startTime, p, cur.characterIndices⟩])
            (i + 1) hpRest hmRest ?_ ?_ ?_ ?_ ?_ ?_
          · intro sp hsp
            rcases List.mem_append.mp hsp with h1 | h2
            · exact hA sp h1
            · rw [List.mem_singleton.mp h2]
              exact hC hcur
          · exact chainAppendOne _ _ _ hB (fun a ha => hE a ha hcur)
          · intro hh; exact absurd rfl hh
          · intro hh; exact absurd rfl hh
          · intro sp hsp hh; exact absurd rfl hh
          · intro sp hsp t ht
            rcases List.mem_append.mp hsp with h1 | h2
            · exact hF sp h1 t (List.mem_cons_of_mem _ ht)
            · rw [List.mem_singleton.mp h2]
              exact hD hcur t (List.mem_cons_of_mem _ ht)
      · simp only [hdel, if_false, ite_false, Bool.false_eq_true]
        refine ih e ⟨cur.text ++ [c], cur.startTime, cur.characterIndices ++ [i]⟩
          acc (i + 1) hpRest hmRest hA hB ?_ ?_ ?_ ?_
        · intro _
          exact le_trans (hD hcur (c, s, e) (List.mem_cons_self _ _)) hse
        · intro _ t ht; exact hD hcur t (List.mem_cons_of_mem _ ht)
        · intro sp hsp _; exact hE sp hsp hcur
        · intro sp hsp t ht; exact hF sp hsp t (List.mem_cons_of_mem _ ht)

theorem mem_zip3_snd {α β γ : Type} :
    ∀ (as : List α) (bs : List β) (cs : List γ) (t : α × β × γ),
      t ∈ zip3 as bs cs → t.2.1 ∈ bs := by
  intro as
  induction as with
  | nil => intro bs cs t ht; simp [zip3] at ht
  | cons a as ih =>
    intro bs cs t ht
    cases bs with
    | nil => simp [zip3] at ht
    | cons b bs =>
      cases cs with
      | nil => simp [zip3] at ht
      | cons c cs =>
        rcases List.mem_cons.mp ht with rfl | hmem
        · exact List.mem_cons_self _ _
        · exact List.mem_cons_of_mem _ (ih bs cs t hmem)

theorem zip3_pointwise {α : Type} (le : ℚ → ℚ → Prop) :
    ∀ (as : List α) (bs cs : List ℚ), List.Forall₂ le bs cs →
      ∀ t ∈ zip3 as bs cs, le t.2.1 t.2.2 := by
  intro as
  induction as with
  | nil => intro bs cs hf t ht; simp [zip3] at ht
  | cons a as ih =>
    intro bs cs hf t ht
    cases bs with
    | nil => simp [zip3] at ht
    | cons b bs =>
      cases cs with
      | nil => simp [zip3] at ht
      | cons c cs =>
        obtain ⟨hbc, hf'⟩ := List.forall₂_cons.mp hf
        rcases List.mem_cons.mp ht with rfl | hmem
        · exact hbc
        · exact ih bs cs hf' t hmem

theorem zip3_pairwise {α : Type} :
    ∀ (as : List α) (bs cs : List ℚ), List.Pairwise (· ≤ ·) bs →
      List.Pairwise (fun t u : α × ℚ × ℚ => t.2.1 ≤ u.2.1)
        (zip3 as bs cs) := by
  intro as
  induction as with
  | nil => intro bs cs hp; simp [zip3]
  | cons a as ih =>
    intro bs cs hp
    cases bs with
    | nil => simp [zip3]
    | cons b bs =>
      cases cs with
      | nil => simp [zip3]
      | cons c cs =>
        obtain ⟨hb, hp'⟩ := List.pairwise_cons.mp hp
        refine List.pairwise_cons.mpr ⟨?_, ih bs cs hp'⟩
        intro u hu
        exact hb u.2.1 (mem_zip3_snd as bs cs u hu)

/-- Structural invariant proof for the full-mode loop: every emitted span
carries consecutive character indices, its text is the image of those
indices under the character stream, and its text holds no delimiter. -/
theorem buildFullGo_struct (g : Nat → Char) :
    ∀ (l : List (Char × ℚ × ℚ)) (p : ℚ) (cur : CurWordT ℚ)
      (acc : List (WordSpanT ℚ)) (i : Nat),
      l.map Prod.fst = (List.range' i l.length).map g →
      cur.characterIndices = List.range' (i - cur.text.length) cur.text.length →
      cur.text.length ≤ i →
      cur.text = cur.characterIndices.map g →
      (∀ c ∈ cur.text, isDelim c = false) →
      (∀ sp ∈ acc, ∃ a, sp.characterIndices = List.range' a sp.text.length ∧
        a + sp.text.length ≤ i ∧ sp.text = sp.characterIndices.map g ∧
        ∀ c ∈ sp.text, isDelim c = false) →
      ∀ sp ∈ buildFullGo 0 l p cur acc i,
        ∃ a, sp.characterIndices = List.range' a sp.text.length ∧
          a + sp.text.length ≤ i + l.length ∧
          sp.text = sp.characterIndices.map g ∧
          ∀ c ∈ sp.text, isDelim c = false := by
  intro l
  induction l with
  | nil =>
    intro p cur acc i hl hI1 hI2 hI3 hI4 hacc
    unfold buildFullGo
    by_cases htext : cur.text = []
    · simp only [htext, ne_eq, not_true_eq_false, if_false, ite_false]
      intro sp hsp
      obtain ⟨a, h1, h2, h3, h4⟩ := hacc sp hsp
      exact ⟨a, h1, by simpa using h2, h3, h4⟩
    · simp only [ne_eq, htext, not_false_eq_true, if_true, ite_true]
      intro sp hsp
      rcases List.mem_append.mp hsp with h1 | h2
      · obtain ⟨a, ha1, ha2, ha3, ha4⟩ := hacc sp h1
        exact ⟨a, ha1, by simpa using ha2, ha3, ha4⟩
      · rw [List.mem_singleton.mp h2]
        refine ⟨i - cur.text.length, hI1, ?_, hI3, hI4⟩
        simp [Nat.sub_add_cancel hI2]
  | cons t rest ih =>
    intro p cur acc i hl hI1 hI2 hI3 hI4 hacc
    obtain ⟨c, s, e⟩ := t
    rw [List.map_cons, List.length_cons, List.range'_succ, List.map_cons]
      at hl
    have hc : c = g i := by
      have := congrArg (fun l => l.headD c) hl
      simpa using this
    have hrest : rest.map Prod.fst = (List.range' (i + 1) rest.length).map g := by
      have := congrArg List.tail hl
      simpa using this
    have hresLen : ((c, s, e) :: rest).length = rest.length + 1 :=
      List.length_cons _ _
    unfold buildFullGo
    by_cases hdel : isDelim c = true
    · simp only [hdel, if_true, ite_true]
      by_cases htrim : jsTrim cur.text = []
      · simp only [ne_eq, htrim, not_true_eq_false, if_false, ite_false]
        intro sp hsp
        obtain ⟨a, h1, h2, h3, h4⟩ := ih e ⟨[], 0, []⟩ acc (i + 1) hrest
          (by simp) (by simp) (by simp) (by simp)
          (fun sp hsp => by
            obtain ⟨a, h1, h2, h3, h4⟩ := hacc sp hsp
            exact ⟨a, h1, Nat.le_succ_of_le h2, h3, h4⟩) sp hsp
        exact ⟨a, h1, by rw [hresLen]; omega, h3, h4⟩
      · have hcur : cur.text ≠ [] := by
          intro hh; rw [hh] at htrim; exact htrim jsTrim_nil
        simp only [ne_eq, htrim, not_false_eq_true, if_true, ite_true]
        intro sp hsp
        obtain ⟨a, h1, h2, h3, h4⟩ := ih e ⟨[], 0, []⟩
          (acc ++ [⟨cur.text, cur.startTime, p, cur.characterIndices⟩])
          (i + 1) hrest (by simp) (by simp) (by simp) (by simp)
          (fun sp hsp => by
            rcases List.mem_append.mp hsp with hh1 | hh2
            · obtain ⟨a, h1, h2, h3, h4⟩ := hacc sp hh1
              exact ⟨a, h1, Nat.le_succ_of_le h2, h3, h4⟩
            · rw [List.mem_singleton.mp hh2]
              refine ⟨i - cur.text.length, hI1, ?_, hI3, hI4⟩
              simp [Nat.sub_add_cancel hI2]) sp hsp
        exact ⟨a, h1, by rw [hresLen]; omega, h3, h4⟩
    · have hdelF : isDelim c = false := by
        cases hcc : isDelim c
        · rfl
        · exact absurd hcc hdel
      simp only [hdel, if_false, ite_false, Bool.false_eq_true]
      have hI1' : cur.characterIndices ++ [i]
          = List.range' ((i + 1) - (cur.text ++ [c]).length)
            (cur.text ++ [c]).length := by
        rw [List.length_append, List.length_singleton]
        have hsub : (i + 1) - (cur.text.length + 1) = i - cur.text.length := by
          omega
        rw [hsub, List.range'_concat, hI1]
        have : (i - cur.text.length) + 1 * cur.text.length = i := by omega
        rw [this]
      have hI3' : cur.text ++ [c] = (cur.characterIndices ++ [i]).map g := by
        rw [List.map_append, ← hI3, List.map_singleton, hc]
      have hI4' : ∀ d ∈ cur.text ++ [c], isDelim d = false := by
        intro d hd
        rcases List.mem_append.mp hd with hh | hh
        · exact hI4 d hh
        · rw [List.mem_singleton.mp hh]; exact hdelF
      have hI2' : (cur.text ++ [c]).length ≤ i + 1 := by
        rw [List.length_append, List.length_singleton]
        omega
      have hacc' : ∀ sp ∈ acc,
          ∃ a, sp.characterIndices = List.range' a sp.text.length ∧
            a + sp.text.length ≤ i + 1 ∧ sp.text = sp.characterIndices.map g ∧
            ∀ c ∈ sp.text, isDelim c = false := by
        intro sp hsp
        obtain ⟨a, h1, h2, h3, h4⟩ := hacc sp hsp
        exact ⟨a, h1, Nat.le_succ_of_le h2, h3, h4⟩
      by_cases hcur : cur.text = []
      · simp only [hcur, if_true, ite_true]
        intro sp hsp
        rw [hcur] at hI1' hI2' hI3' hI4'
        obtain ⟨a, h1, h2, h3, h4⟩ := ih e ⟨[] ++ [c], s, cur.characterIndices ++ [i]⟩
          acc (i + 1) hrest hI1' hI2' hI3' hI4' hacc' sp hsp
        exact ⟨a, h1, by rw [hresLen]; omega, h3, h4⟩
      · simp only [hcur, if_false, ite_false]
        intro sp hsp
        obtain ⟨a, h1, h2, h3, h4⟩ := ih e
          ⟨cur.text ++ [c], cur.startTime, cur.characterIndices ++ [i]⟩
          acc (i + 1) hrest hI1' hI2' hI3' hI4' hacc' sp hsp
        exact ⟨a, h1, by rw [hresLen]; omega, h3, h4⟩

theorem zip3_map_fst {α β γ : Type} :
    ∀ (as : List α) (bs : List β) (cs : List γ),
      bs.length = as.length → cs.length = as.length →
      (zip3 as bs cs).map Prod.fst = as := by
  intro as
  induction as with
  | nil =>
    intro bs cs hb hc
    cases bs with
    | nil => rfl
    | cons b bs => simp at hb
  | cons a as ih =>
    intro bs cs hb hc
    cases bs with
    | nil => simp at hb
    | cons b bs =>
      cases cs with
      | nil => simp at hc
      | cons c cs =>
        simp only [zip3, List.map_cons]
        rw [ih bs cs (by simpa using hb) (by simpa using hc)]

theorem zip3_length {α β γ : Type} :
    ∀ (as : List α) (bs : List β) (cs : List γ),
      bs.length = as.length → cs.length = as.length →
      (zip3 as bs cs).length = as.length := by
  intro as bs cs hb hc
  have := congrArg List.length (zip3_map_fst as bs cs hb hc)
  simpa using this

theorem map_getD_range'_shift {α : Type} (a : α) (L : List α) (d : α) :
    ∀ (n s : Nat),
      (List.range' (s + 1) n).map (fun j => (a :: L).getD j d)
        = (List.range' s n).map (fun j => L.getD j d) := by
  intro n
  induction n with
  | zero => intro s; rfl
  | succ n ih =>
    intro s
    rw [List.range'_succ, List.range'_succ, List.map_cons, List.map_cons]
    rw [ih (s + 1)]
    rfl

theorem map_getD_range' {α : Type} (d : α) :
    ∀ (L : List α),
      (List.range' 0 L.length).map (fun j => L.getD j d) = L := by
  intro L
  induction L with
  | nil => rfl
  | cons a L ih =>
    rw [List.length_cons, List.range'_succ, List.map_cons]
    rw [map_getD_range'_shift a L d L.length 0, ih]
    rfl

theorem buildFullGo_map {τ σ : Type} (f : τ → σ) (z : τ) :
    ∀ (l : List (Char × τ × τ)) (p : τ) (cur : CurWordT τ)
      (acc : List (WordSpanT τ)) (i : Nat),
      buildFullGo (f z) (l.map (fun t => (t.1, f t.2.1, f t.2.2))) (f p)
          ⟨cur.text, f cur.startTime, cur.characterIndices⟩
          (acc.map (mapSpan f)) i
        = (buildFullGo z l p cur acc i).map (mapSpan f) := by
  intro l
  induction l with
  | nil =>
    intro p cur acc i
    unfold buildFullGo
    by_cases htext : cur.text = []
    · simp [htext]
    · simp [htext, mapSpan]
  | cons t rest ih =>
    intro p cur acc i
    obtain ⟨c, s, e⟩ := t
    unfold buildFullGo
    by_cases hdel : isDelim c = true
    · simp only [List.map_cons, hdel, if_true, ite_true]
      by_cases htrim : jsTrim cur.text = []
      · simp only [ne_eq, htrim, not_true_eq_false, if_false, ite_false]
        exact ih e ⟨[], z, []⟩ acc (i + 1)
      · simp only [ne_eq, htrim, not_false_eq_true, if_true, ite_true]
        have := ih e ⟨[], z, []⟩
          (acc ++ [⟨cur.text, cur.startTime, p, cur.characterIndices⟩]) (i + 1)
        rw [List.map_append] at this
        simpa [mapSpan] using this
    · simp only [List.map_cons, hdel, if_false, ite_false, Bool.false_eq_true]
      by_cases hcur : cur.text = []
      · simp only [hcur, if_true, ite_true]
        exact ih e ⟨[] ++ [c], s, cur.characterIndices ++ [i]⟩ acc (i + 1)
      · simp only [hcur, if_false, ite_false]
        exact ih e ⟨cur.text ++ [c], cur.startTime, cur.characterIndices ++ [i]⟩
          acc (i + 1)

/-- The initial prevEnd of the full-mode loop is never observed while the
accumulator is empty: no close can happen before a first character was
taken. -/
theorem buildFullGo_prevEnd_irrel {τ : Type} (z : τ) :
    ∀ (l : List (Char × τ × τ)) (p p' : τ) (acc : List (WordSpanT τ))
      (i : Nat),
      buildFullGo z l p ⟨[], z, []⟩ acc i
        = buildFullGo z l p' ⟨[], z, []⟩ acc i := by
  intro l p p' acc i
  cases l with
  | nil => rfl
  | cons t rest =>
    obtain ⟨c, s, e⟩ := t
    unfold buildFullGo
    by_cases hdel : isDelim c = true
    · simp [hdel, jsTrim_nil]
    · simp [hdel]

/-- With equal-length arrays the JS index reads are all in range, so the
indexed triple stream of buildWordsJS is the some-image of the zipped
stream. -/
theorem jsTriples_eq (chars : List Char) :
    ∀ (starts ends : List ℚ),
      starts.length = chars.length → ends.length = chars.length →
      (List.range chars.length).map (fun i =>
          (chars.getD i ' ', starts.get? i, ends.get? i))
        = (zip3 chars starts ends).map
            (fun t => (t.1, some t.2.1, some t.2.2)) := by
  induction chars with
  | nil => intro starts ends hs he; rfl
  | cons c chars ih =>
    intro starts ends hs he
    cases starts with
    | nil => simp at hs
    | cons s starts =>
      cases ends with
      | nil => simp at he
      | cons e ends =>
        simp only [List.length_cons, List.range_succ_eq_map, List.map_cons,
          List.map_map, zip3]
        refine congrArg₂ List.cons rfl ?_
        rw [← ih starts ends (by simpa using hs) (by simpa using he)]
        apply List.map_congr_left
        intro i hi
        rfl

/-! ### Helper lemmas about the playback models -/

theorem getStatus_setStatus_self (f : Nat → Option AudioStatus) (a : Nat)
    (st : AudioStatus) :
    getStatus (setStatus f a st) a = some st := by
  simp [getStatus, setStatus]

theorem getStatus_setStatus_ne (f : Nat → Option AudioStatus) (a b : Nat)
    (st : AudioStatus) (hne : b ≠ a) :
    getStatus (setStatus f a st) b = getStatus f b := by
  simp [getStatus, setStatus, hne]

/-! ### Claim theorems -/

/-- C1, counterexample: with a fresh (empty) session cache, one
orchestrator call on the sentence cat cat dog issues 3 synthesis calls,
not 2 — all per-word tasks read the cache before any write lands, so both
cat occurrences miss — and the two cat entries carry the bytes of their own
distinct calls rather than identical bytes. -/
theorem claim_C1_counterexample :
    (createSentenceAudioRun (fun k => some [k]) [] ("cat cat dog".toList)).2.2
      = 3 ∧
    (createSentenceAudioRun (fun k => some [k]) [] ("cat cat dog".toList)).2.2
      ≠ 2 ∧
    (createSentenceAudioRun (fun k => some [k]) [] ("cat cat dog".toList)).1
      = [⟨"cat".toList, [0]⟩, ⟨"cat".toList, [1]⟩, ⟨"dog".toList, [2]⟩] ∧
    (((createSentenceAudioRun (fun k => some [k]) []
        ("cat cat dog".toList)).1.get? 0).map WordAudio.audio
      ≠ ((createSentenceAudioRun (fun k => some [k]) []
        ("cat cat dog".toList)).1.get? 1).map WordAudio.audio) := by
  decide

/-- C1, amended: within one session the orchestrator issues one synthesis
call per cache-missing token occurrence — the call count equals the number
of tokens missing from the pre-call cache counted with multiplicity, so
duplicated uncached words are synthesized once per occurrence — and when
all syntheses of the first call succeed, a second call with the same
sentence issues zero new synthesis calls and every entry carries exactly
the bytes cached for its word, so duplicate words then receive identical
bytes. -/
theorem claim_C1_amended (synth synth2 : Nat → Option Bytes)
    (cache : CacheMap) (s : List Char) (hs : ∀ k, (synth k).isSome) :
    (createSentenceAudioRun synth cache s).2.2
      = (tokenizeSentence s).countP (fun w => (getWordC cache w).isNone) ∧
    (createSentenceAudioRun synth2
        (createSentenceAudioRun synth cache s).2.1 s).2.2 = 0 ∧
    (∀ e ∈ (createSentenceAudioRun synth2
        (createSentenceAudioRun synth cache s).2.1 s).1,
      getWordC (createSentenceAudioRun synth cache s).2.1 e.word
        = some e.audio) := by
  refine ⟨runTokens_calls synth cache _ 0, ?_, ?_⟩
  · have hz := runTokens_calls synth2
      (createSentenceAudioRun synth cache s).2.1 (tokenizeSentence s) 0
    have h0 : (tokenizeSentence s).countP
        (fun w => (getWordC ((createSentenceAudioRun synth cache s).2.1) w).isNone)
        = 0 := by
      rw [List.countP_eq_zero]
      intro w hw
      have hsom := tokens_cached_after synth cache s hs w hw
      cases hg : getWordC ((createSentenceAudioRun synth cache s).2.1) w
      · rw [hg] at hsom; simp at hsom
      · simp [hg]
    exact hz.trans h0
  · intro e he
    have hword : e.word ∈ tokenizeSentence s := by
      have hm := List.mem_map_of_mem WordAudio.word he
      have heq : ((createSentenceAudioRun synth2
          (createSentenceAudioRun synth cache s).2.1 s).1).map WordAudio.word
          = tokenizeSentence s :=
        runTokens_map_word synth2 _ (tokenizeSentence s) 0
      rw [heq] at hm
      exact hm
    have hsom := tokens_cached_after synth cache s hs e.word hword
    obtain ⟨b, hb⟩ := Option.isSome_iff_exists.mp hsom
    rw [hb, runTokens_hit synth2 _ (tokenizeSentence s) 0 e he b hb]

/-- C2: for the characters of Hello there with start and end timestamps at
0.1 second increments from 0.0, the full-mode word-span construction
yields exactly two spans: Hello from 0.0 to 0.4 and there from 0.6 to 1.0,
the end time of a word being the end timestamp of the character just
before the closing delimiter. -/
theorem claim_C2 :
    buildWords ("Hello there".toList)
        ((List.range 11).map (fun i => mkRat i 10))
        ((List.range 11).map (fun i => mkRat i 10))
      = [⟨"Hello".toList, 0, mkRat 4 10, [0, 1, 2, 3, 4]⟩,
         ⟨"there".toList, mkRat 6 10, 1, [6, 7, 8, 9, 10]⟩] := by
  decide

/-- C3: for every equal-length triple of characters and monotone
non-decreasing timestamps (starts pointwise at or before ends, starts
non-decreasing), both word-building loops return spans whose start-time
sequence is non-decreasing and in which every span has endTime at or after
startTime. -/
theorem claim_C3 (chars : List Char) (starts ends : List ℚ)
    (hlen1 : starts.length = chars.length)
    (hlen2 : ends.length = chars.length)
    (hmono : List.Pairwise (· ≤ ·) starts)
    (hpt : List.Forall₂ (· ≤ ·) starts ends) :
    ((∀ sp ∈ buildWords chars starts ends, sp.startTime ≤ sp.endTime) ∧
      List.Chain' (fun a b : WordSpanT ℚ => a.startTime ≤ b.startTime)
        (buildWords chars starts ends)) ∧
    ((∀ sp ∈ buildWordsAlign chars starts ends, sp.startTime ≤ sp.endTime) ∧
      List.Chain' (fun a b : WordSpanT ℚ => a.startTime ≤ b.startTime)
        (buildWordsAlign chars starts ends)) := by
  constructor
  · exact buildFullGo_mono (zip3 chars starts ends) 0 ⟨[], 0, []⟩ [] 0
      (zip3_pointwise _ chars starts ends hpt)
      (zip3_pairwise chars starts ends hmono)
      (fun sp hsp => absurd hsp (List.not_mem_nil sp))
      List.chain'_nil
      (fun hh => absurd rfl hh)
      (fun hh => absurd rfl hh)
      (fun sp hsp => absurd hsp (List.not_mem_nil sp))
      (fun sp hsp => absurd hsp (List.not_mem_nil sp))
  · exact buildAlignGo_mono (zip3 chars starts ends) 0 ⟨[], 0, []⟩ [] 0
      (zip3_pointwise _ chars starts ends hpt)
      (zip3_pairwise chars starts ends hmono)
      (fun sp hsp => absurd hsp (List.not_mem_nil sp))
      List.chain'_nil
      (fun hh => absurd rfl hh)
      (fun hh => absurd rfl hh)
      (fun sp hsp => absurd hsp (List.not_mem_nil sp))
      (fun sp hsp => absurd hsp (List.not_mem_nil sp))

/-- C3 witness: a concrete run on the characters of ab c with timestamps
at 0.1 second increments. -/
theorem claim_C3_witness :
    ((∀ sp ∈ buildWords ("ab c".toList)
          [mkRat 0 10, mkRat 1 10, mkRat 2 10, mkRat 3 10]
          [mkRat 0 10, mkRat 1 10, mkRat 2 10, mkRat 3 10],
        sp.startTime ≤ sp.endTime) ∧
      List.Chain' (fun a b : WordSpanT ℚ => a.startTime ≤ b.startTime)
        (buildWords ("ab c".toList)
          [mkRat 0 10, mkRat 1 10, mkRat 2 10, mkRat 3 10]
          [mkRat 0 10, mkRat 1 10, mkRat 2 10, mkRat 3 10])) ∧
    ((∀ sp ∈ buildWordsAlign ("ab c".toList)
          [mkRat 0 10, mkRat 1 10, mkRat 2 10, mkRat 3 10]
          [mkRat 0 10, mkRat 1 10, mkRat 2 10, mkRat 3 10],
        sp.startTime ≤ sp.endTime) ∧
      List.Chain' (fun a b : WordSpanT ℚ => a.startTime ≤ b.startTime)
        (buildWordsAlign ("ab c".toList)
          [mkRat 0 10, mkRat 1 10, mkRat 2 10, mkRat 3 10]
          [mkRat 0 10, mkRat 1 10, mkRat 2 10, mkRat 3 10])) :=
  claim_C3 ("ab c".toList) _ _ (by decide) (by decide) (by decide) (by decide)

/-- C1 witness: the amended statement at a concrete synthesizer, empty
cache and the sentence cat cat dog. -/
theorem claim_C1_amended_witness :
    (createSentenceAudioRun (fun k => some [k]) [] ("cat cat dog".toList)).2.2
      = (tokenizeSentence ("cat cat dog".toList)).countP
          (fun w => (getWordC [] w).isNone) ∧
    (createSentenceAudioRun (fun k => some [100 + k])
        (createSentenceAudioRun (fun k => some [k]) []
          ("cat cat dog".toList)).2.1 ("cat cat dog".toList)).2.2 = 0 ∧
    (∀ e ∈ (createSentenceAudioRun (fun k => some [100 + k])
        (createSentenceAudioRun (fun k => some [k]) []
          ("cat cat dog".toList)).2.1 ("cat cat dog".toList)).1,
      getWordC (createSentenceAudioRun (fun k => some [k]) []
          ("cat cat dog".toList)).2.1 e.word = some e.audio) :=
  claim_C1_amended (fun k => some [k]) (fun k => some [100 + k]) []
    ("cat cat dog".toList) (fun k => rfl)

/-- C4, counterexample: on the mismatched-length input with two characters
but a single start and a single end timestamp, the full-mode construction
does not fail with any error: it returns one span whose end-time read was
out of range (undefined).  The loops contain no length validation at
all. -/
theorem claim_C4_counterexample :
    buildWordsJS ['a', 'b'] [0] [0]
      = [⟨['a', 'b'], some 0, none, [0, 1]⟩] := by
  decide

/-- C4, amended: the alignment word-building code never fails and performs
no length validation; a mismatched-length input yields spans with
undefined out-of-range timestamp reads, while for every equal-length input
the construction succeeds with every timestamp defined, agreeing with the
in-range rendering of the loop. -/
theorem claim_C4_amended (chars : List Char) (starts ends : List ℚ)
    (h1 : starts.length = chars.length) (h2 : ends.length = chars.length) :
    buildWordsJS chars starts ends
      = (buildWords chars starts ends).map (mapSpan some) := by
  unfold buildWordsJS buildWords
  rw [jsTriples_eq chars starts ends h1 h2]
  rw [buildFullGo_prevEnd_irrel (some 0) _ none (some 0) [] 0]
  have h := buildFullGo_map some (0 : ℚ) (zip3 chars starts ends) 0
    ⟨[], 0, []⟩ [] 0
  simpa using h

/-- C4 witness: the amended agreement at a concrete equal-length input. -/
theorem claim_C4_amended_witness :
    buildWordsJS ("a b".toList) [mkRat 0 10, mkRat 1 10, mkRat 2 10]
        [mkRat 0 10, mkRat 1 10, mkRat 2 10]
      = (buildWords ("a b".toList) [mkRat 0 10, mkRat 1 10, mkRat 2 10]
          [mkRat 0 10, mkRat 1 10, mkRat 2 10]).map (mapSpan some) :=
  claim_C4_amended ("a b".toList) _ _ (by decide) (by decide)

/-- C5: for every sentence the orchestrator returns one entry per token in
token order without failing, and the bytes of every entry are fully
characterized: a token found in the cache carries the cached bytes, a
cache-missing token whose synthesis call succeeds carries the bytes of its
own call, and a cache-missing token whose synthesis call fails carries the
zero-length audio placeholder — so a failure affects only its own entry
while all other entries carry the real cache or synthesis bytes. -/
theorem claim_C5 (synth : Nat → Option Bytes) (cache : CacheMap)
    (s : List Char) (i : Nat) (hi : i < (tokenizeSentence s).length) :
    ((createSentenceAudioRun synth cache s).1).map WordAudio.word
      = tokenizeSentence s ∧
    ((createSentenceAudioRun synth cache s).1).length
      = (tokenizeSentence s).length ∧
    (∀ b, getWordC cache ((tokenizeSentence s).getD i []) = some b →
      ((createSentenceAudioRun synth cache s).1).get? i
        = some ⟨(tokenizeSentence s).getD i [], b⟩) ∧
    (∀ b, getWordC cache ((tokenizeSentence s).getD i []) = none →
      synth (missBefore cache (tokenizeSentence s) i) = some b →
      ((createSentenceAudioRun synth cache s).1).get? i
        = some ⟨(tokenizeSentence s).getD i [], b⟩) ∧
    (getWordC cache ((tokenizeSentence s).getD i []) = none →
      synth (missBefore cache (tokenizeSentence s) i) = none →
      ((createSentenceAudioRun synth cache s).1).get? i
        = some ⟨(tokenizeSentence s).getD i [], []⟩) := by
  have h : ((createSentenceAudioRun synth cache s).1).get? i
      = some ⟨(tokenizeSentence s).getD i [],
          expectedBytes synth cache (tokenizeSentence s) 0 i
            ((tokenizeSentence s).getD i [])⟩ :=
    runTokens_get? synth cache (tokenizeSentence s) 0 i hi
  refine ⟨runTokens_map_word synth cache _ 0,
    runTokens_length synth cache _ 0, ?_, ?_, ?_⟩
  · intro b hb
    have hb' : getWordC cache ((tokenizeSentence s)[i]?.getD [])
        = some b := by
      simpa [List.getD] using hb
    rw [h]
    have hz : expectedBytes synth cache (tokenizeSentence s) 0 i
        ((tokenizeSentence s).getD i []) = b := by
      simp [expectedBytes, hb, hb']
    rw [hz]
  · intro b hmiss hsucc
    have hmiss' : getWordC cache ((tokenizeSentence s)[i]?.getD [])
        = none := by
      simpa [List.getD] using hmiss
    rw [h]
    have hz : expectedBytes synth cache (tokenizeSentence s) 0 i
        ((tokenizeSentence s).getD i []) = b := by
      simp [expectedBytes, hmiss, hmiss', Nat.zero_add, hsucc]
    rw [hz]
  · intro hmiss hfail
    have hmiss' : getWordC cache ((tokenizeSentence s)[i]?.getD [])
        = none := by
      simpa [List.getD] using hmiss
    rw [h]
    have hz : expectedBytes synth cache (tokenizeSentence s) 0 i
        ((tokenizeSentence s).getD i []) = [] := by
      simp [expectedBytes, hmiss, hmiss', Nat.zero_add, hfail]
    rw [hz]

/-- C5 witness: five tokens, the third synthesis call fails; the call
still returns five entries in order, the failed word gets zero-length
audio, and the cache-hit and successful-synthesis cases pin the bytes of
the other entries. -/
theorem claim_C5_witness :
    ((createSentenceAudioRun (fun k => if k = 2 then none else some [k + 1])
        [] ("a b c d e".toList)).1).map WordAudio.word
      = tokenizeSentence ("a b c d e".toList) ∧
    ((createSentenceAudioRun (fun k => if k = 2 then none else some [k + 1])
        [] ("a b c d e".toList)).1).length
      = (tokenizeSentence ("a b c d e".toList)).length ∧
    (∀ b, getWordC [] ((tokenizeSentence ("a b c d e".toList)).getD 2 [])
        = some b →
      ((createSentenceAudioRun (fun k => if k = 2 then none else some [k + 1])
          [] ("a b c d e".toList)).1).get? 2
        = some ⟨(tokenizeSentence ("a b c d e".toList)).getD 2 [], b⟩) ∧
    (∀ b, getWordC [] ((tokenizeSentence ("a b c d e".toList)).getD 2 [])
        = none →
      (if missBefore [] (tokenizeSentence ("a b c d e".toList)) 2 = 2
        then none else some [missBefore []
          (tokenizeSentence ("a b c d e".toList)) 2 + 1]) = some b →
      ((createSentenceAudioRun (fun k => if k = 2 then none else some [k + 1])
          [] ("a b c d e".toList)).1).get? 2
        = some ⟨(tokenizeSentence ("a b c d e".toList)).getD 2 [], b⟩) ∧
    (getWordC [] ((tokenizeSentence ("a b c d e".toList)).getD 2 []) = none →
      (if missBefore [] (tokenizeSentence ("a b c d e".toList)) 2 = 2
        then none else some [missBefore []
          (tokenizeSentence ("a b c d e".toList)) 2 + 1]) = none →
      ((createSentenceAudioRun (fun k => if k = 2 then none else some [k + 1])
          [] ("a b c d e".toList)).1).get? 2
        = some ⟨(tokenizeSentence ("a b c d e".toList)).getD 2 [], []⟩) :=
  claim_C5 (fun k => if k = 2 then none else some [k + 1]) []
    ("a b c d e".toList) 2 (by decide)

/-- C6, counterexample: in the word-grid page handler, tapping word 0 and
then word 1 while word 0 is still playing leaves BOTH playbacks active —
the tap handler never stops the current audio, so it is not true that any
new playback first stops whatever is playing. -/
theorem claim_C6_counterexample :
    (handleWordTap ["cat".toList, "dog".toList]
        (handleWordTap ["cat".toList, "dog".toList]
          ⟨none, [], false⟩ 0 ("cat".toList))
        1 ("dog".toList)).playing = [0, 1] := by
  decide

/-- C6, amended: the storybook player (playWordWithAudio) pauses the
currently playing word audio before starting a new one — the pause action
precedes the play action, the previous element ends paused, only the new
element is playing afterwards — but the word-grid tap handler
(handleWordTap) never stops any playing audio, so its playback set only
grows and overlapping playback is possible there. -/
theorem claim_C6_amended (s : PlayerState) (a b wordIndex : Nat)
    (hcur : s.currentPlayingAudio = some a)
    (hint : s.wordPlayInterval = none)
    (hmain : s.mainPlaying = false)
    (hplaying : getStatus s.statuses a = some .playing)
    (honly : ∀ id, id ≠ a → getStatus s.statuses id ≠ some .playing)
    (hfresh : getStatus s.statuses b = none) :
    (playWordWithAudioStart s b wordIndex).2
      = [PlayerAction.pause a, PlayerAction.play b] ∧
    getStatus (playWordWithAudioStart s b wordIndex).1.statuses a
      = some .paused ∧
    getStatus (playWordWithAudioStart s b wordIndex).1.statuses b
      = some .playing ∧
    (∀ id, id ≠ b →
      getStatus (playWordWithAudioStart s b wordIndex).1.statuses id
        ≠ some .playing) ∧
    (∀ (wordAudios : List (List Char)) (ts : TapState) (j : Nat)
        (w : List Char), ∀ x ∈ ts.playing,
      x ∈ (handleWordTap wordAudios ts j w).playing) := by
  have hab : a ≠ b := by
    intro hh
    rw [hh, hfresh] at hplaying
    exact Option.noConfusion hplaying
  have hstate : (playWordWithAudioStart s b wordIndex).1.statuses
      = setStatus (setStatus s.statuses a .paused) b .playing := by
    simp [playWordWithAudioStart, hcur, hint, hmain]
  refine ⟨?_, ?_, ?_, ?_, ?_⟩
  · simp [playWordWithAudioStart, hcur, hint, hmain]
  · rw [hstate, getStatus_setStatus_ne _ _ _ _ hab, getStatus_setStatus_self]
  · rw [hstate, getStatus_setStatus_self]
  · intro id hid
    rw [hstate, getStatus_setStatus_ne _ _ _ _ hid]
    by_cases hida : id = a
    · rw [hida, getStatus_setStatus_self]
      intro hh
      exact AudioStatus.noConfusion (Option.some.inj hh)
    · rw [getStatus_setStatus_ne _ _ _ _ hida]
      exact honly id hida
  · intro wordAudios ts j w x hx
    unfold handleWordTap
    by_cases hc : ts.isCreating = true
    · simp [hc, hx]
    · simp only [hc, Bool.false_eq_true, if_false, ite_false]
      by_cases hf : (wordAudios.any
          (fun wa => toLowerList wa == toLowerList w)) = true
      · simp [hf, List.mem_append, hx]
      · simp [hf, hx]

/-- C6 witness: a concrete state with word 0 playing; starting word 1
pauses word 0 first and only word 1 remains playing. -/
theorem claim_C6_amended_witness :
    (playWordWithAudioStart
        ⟨some 0, none, false, 5,
          fun j => if j = 0 then some .playing else none⟩ 1 7).2
      = [PlayerAction.pause 0, PlayerAction.play 1] ∧
    getStatus (playWordWithAudioStart
        ⟨some 0, none, false, 5,
          fun j => if j = 0 then some .playing else none⟩ 1 7).1.statuses 0
      = some .paused ∧
    getStatus (playWordWithAudioStart
        ⟨some 0, none, false, 5,
          fun j => if j = 0 then some .playing else none⟩ 1 7).1.statuses 1
      = some .playing ∧
    (∀ id, id ≠ 1 →
      getStatus (playWordWithAudioStart
          ⟨some 0, none, false, 5,
            fun j => if j = 0 then some .playing else none⟩ 1 7).1.statuses id
        ≠ some .playing) ∧
    (∀ (wordAudios : List (List Char)) (ts : TapState) (j : Nat)
        (w : List Char), ∀ x ∈ ts.playing,
      x ∈ (handleWordTap wordAudios ts j w).playing) :=
  claim_C6_amended
    ⟨some 0, none, false, 5, fun j => if j = 0 then some .playing else none⟩
    0 1 7 rfl rfl rfl rfl
    (fun id hid => by simp [getStatus, hid])
    (by simp [getStatus])

/-- C7: tokenization never yields a token that is empty after stripping
the fixed punctuation set, and no punctuation character survives in any
token; the function is total. -/
theorem claim_C7 (s : List Char) :
    ∀ w ∈ tokenizeSentence s, w ≠ [] ∧ ∀ c ∈ w, isPunct c = false := by
  intro w hw
  unfold tokenizeSentence at hw
  have h1 := List.mem_filter.mp hw
  constructor
  · intro hnil
    rw [hnil] at h1
    simp at h1
  · obtain ⟨v, hv, hveq⟩ := List.mem_map.mp h1.1
    intro c hc
    rw [← hveq] at hc
    unfold cleanWord at hc
    have := List.of_mem_filter hc
    simpa using this

/-- C7 witness: the token cat of a concrete punctuated sentence. -/
theorem claim_C7_witness :
    ("cat".toList ≠ [] ∧
      ∀ c ∈ ("cat".toList), isPunct c = false) :=
  claim_C7 ("cat, dog!".toList) ("cat".toList) (by decide)

/-- C8, counterexample: in playSentenceAudio a failing middle word aborts
the sequence: with the second of three words failing, only the first word
completes, the third is never played, and the rejection propagates to the
caller as an error. -/
theorem claim_C8_counterexample :
    playSentenceAudioM (fun b => !(b == [1]))
        [⟨"a".toList, [0]⟩, ⟨"b".toList, [1]⟩, ⟨"c".toList, [2]⟩]
      = (["a".toList], Except.error ()) := by
  decide

/-- C8, amended: the storybook word playback (playWordWithAudio) recovers
a decode or play failure locally — the wait resolves, the current-audio
ref returns to none and no error value reaches the caller — but the
playAudioBlob promise of the audio library rejects on failure and
playSentenceAudio propagates that rejection, aborting the remaining
words of the sequence. -/
theorem claim_C8_amended :
    (∀ (decodeOk : Bool) (s : PlayerState) (newId wordIndex : Nat),
        (playWordWithAudioRun decodeOk s newId wordIndex).currentPlayingAudio
          = none) ∧
    (∀ (playOk : Bytes → Bool) (wa : WordAudio) (rest : List WordAudio),
        playOk wa.audio = false →
        playSentenceAudioM playOk (wa :: rest) = ([], Except.error ())) := by
  constructor
  · intro decodeOk s newId wordIndex
    unfold playWordWithAudioRun wordAudioEnded wordAudioErrored
      playWordWithAudioStart
    cases hc : s.currentPlayingAudio <;> cases hi : s.wordPlayInterval <;>
      cases hm : s.mainPlaying <;> cases decodeOk <;> simp
  · intro playOk wa rest h
    unfold playSentenceAudioM playAudioBlobM
    simp [h]

/-- C8 witness: the amended statement at a failing concrete word and a
concrete storybook state. -/
theorem claim_C8_amended_witness :
    (playWordWithAudioRun false
        ⟨some 0, none, false, 5,
          fun j => if j = 0 then some .playing else none⟩
        1 7).currentPlayingAudio = none ∧
    playSentenceAudioM (fun b => !(b == [1]))
        [⟨"b".toList, [1]⟩, ⟨"c".toList, [2]⟩]
      = ([], Except.error ()) :=
  ⟨claim_C8_amended.1 false
      ⟨some 0, none, false, 5, fun j => if j = 0 then some .playing else none⟩
      1 7,
    claim_C8_amended.2 (fun b => !(b == [1])) ⟨"b".toList, [1]⟩
      [⟨"c".toList, [2]⟩] (by decide)⟩

/-- C9: every entry of the duration-probing orchestrator derives its
duration from the metadata probe of its own audio bytes, and a probe
failure falls back to the constant 500 milliseconds; the probe failure is
never propagated. -/
theorem claim_C9 (synth : Nat → Option Bytes) (probe : Bytes → Option ℚ)
    (cache : CacheMap) (s : List Char) :
    ∀ e ∈ (createSentenceAudioRunD synth probe cache s).1,
      (∀ d, probe e.audio = some d → e.duration = d) ∧
      (probe e.audio = none → e.duration = 500) := by
  intro e he
  have h := runTokensD_duration synth probe cache (tokenizeSentence s) 0 e he
  constructor
  · intro d hd
    rw [h, hd]
  · intro hd
    rw [h, hd]

/-- C9 witness: a concrete run in which the entry hi has probed duration
250 while a failing probe would yield 500. -/
theorem claim_C9_witness :
    ((∀ d, (fun (b : Bytes) => if b = [] then none else some (250 : ℚ))
        ((⟨"hi".toList, [7], 250⟩ : WordAudioD).audio) = some d →
        (⟨"hi".toList, [7], 250⟩ : WordAudioD).duration = d) ∧
      ((fun (b : Bytes) => if b = [] then none else some (250 : ℚ))
        ((⟨"hi".toList, [7], 250⟩ : WordAudioD).audio) = none →
        (⟨"hi".toList, [7], 250⟩ : WordAudioD).duration = 500)) :=
  claim_C9 (fun k => some [k + 7])
    (fun b => if b = [] then none else some (250 : ℚ)) []
    ("hi yo".toList) ⟨"hi".toList, [7], 250⟩ (by decide)

/-- C10: every span the full-mode loop emits on an equal-length input has
consecutive strictly increasing character indices lying inside the
characters array, text equal to the characters at those indices (so text
length equals the index count), and no delimiter inside its text. -/
theorem claim_C10 (chars : List Char) (starts ends : List ℚ)
    (h1 : starts.length = chars.length) (h2 : ends.length = chars.length) :
    ∀ sp ∈ buildWords chars starts ends,
      (∃ a, sp.characterIndices = List.range' a sp.text.length) ∧
      sp.text.length = sp.characterIndices.length ∧
      (∀ j ∈ sp.characterIndices, j < chars.length) ∧
      sp.text = sp.characterIndices.map (fun j => chars.getD j ' ') ∧
      (∀ c ∈ sp.text, isDelim c = false) := by
  intro sp hsp
  have hl : (zip3 chars starts ends).map Prod.fst
      = (List.range' 0 (zip3 chars starts ends).length).map
          (fun j => chars.getD j ' ') := by
    rw [zip3_map_fst chars starts ends h1 h2,
      zip3_length chars starts ends h1 h2, map_getD_range' ' ' chars]
  obtain ⟨a, ha1, ha2, ha3, ha4⟩ := buildFullGo_struct
    (fun j => chars.getD j ' ') (zip3 chars starts ends) 0 ⟨[], 0, []⟩ [] 0
    hl rfl (Nat.le_refl 0) rfl
    (fun c hc => absurd hc (List.not_mem_nil c))
    (fun sp hsp => absurd hsp (List.not_mem_nil sp))
    sp hsp
  refine ⟨⟨a, ha1⟩, ?_, ?_, ha3, ha4⟩
  · rw [ha1, List.length_range']
  · intro j hj
    rw [ha1] at hj
    have hjr := List.mem_range'_1.mp hj
    have hb : a + sp.text.length ≤ 0 + (zip3 chars starts ends).length := ha2
    rw [Nat.zero_add, zip3_length chars starts ends h1 h2] at hb
    omega

/-- C10 witness: the property instantiated at the Hello there input and
its first emitted span. -/
theorem claim_C10_witness :
    (∃ a, (⟨"Hello".toList, 0, mkRat 4 10, [0, 1, 2, 3, 4]⟩ :
        WordSpanT ℚ).characterIndices
      = List.range' a (⟨"Hello".toList, 0, mkRat 4 10, [0, 1, 2, 3, 4]⟩ :
        WordSpanT ℚ).text.length) ∧
    (⟨"Hello".toList, 0, mkRat 4 10, [0, 1, 2, 3, 4]⟩ :
        WordSpanT ℚ).text.length
      = (⟨"Hello".toList, 0, mkRat 4 10, [0, 1, 2, 3, 4]⟩ :
        WordSpanT ℚ).characterIndices.length ∧
    (∀ j ∈ (⟨"Hello".toList, 0, mkRat 4 10, [0, 1, 2, 3, 4]⟩ :
        WordSpanT ℚ).characterIndices, j < ("Hello there".toList).length) ∧
    (⟨"Hello".toList, 0, mkRat 4 10, [0, 1, 2, 3, 4]⟩ :
        WordSpanT ℚ).text
      = (⟨"Hello".toList, 0, mkRat 4 10, [0, 1, 2, 3, 4]⟩ :
        WordSpanT ℚ).characterIndices.map
          (fun j => ("Hello there".toList).getD j ' ') ∧
    (∀ c ∈ (⟨"Hello".toList, 0, mkRat 4 10, [0, 1, 2, 3, 4]⟩ :
        WordSpanT ℚ).text, isDelim c = false) :=
  claim_C10 ("Hello there".toList)
    ((List.range 11).map (fun i => mkRat i 10))
    ((List.range 11).map (fun i => mkRat i 10))
    (by decide) (by decide)
    ⟨"Hello".toList, 0, mkRat 4 10, [0, 1, 2, 3, 4]⟩ (by decide)

end Woodpecker
